import Mathlib

/-!
Verification of the flux-qubit charge-basis Hamiltonian construction
(`scqubits/core/flux_qubit.py`), shallowly embedded over exact complex
arithmetic.  Machine floats are modelled by real numbers; numpy matrices of
complex entries are modelled by `Matrix (Fin n) (Fin n) ℂ`; `np.kron` is
modelled by a Kronecker product carried along numpy's row-major flattened
index convention (flat index `i*d + j` for the pair `(i, j)`).
-/

open Matrix Complex
open scoped Kronecker ComplexConjugate

noncomputable section

/-- The parameter set of a flux qubit: exactly the fields stored by
`FluxQubit.__init__` that enter the Hamiltonian construction. -/
structure FluxQubit where
  EJ1 : ℝ
  EJ2 : ℝ
  EJ3 : ℝ
  ECJ1 : ℝ
  ECJ2 : ℝ
  ECJ3 : ℝ
  ECg1 : ℝ
  ECg2 : ℝ
  ng1 : ℝ
  ng2 : ℝ
  flux : ℝ
  ncut : ℕ

namespace FluxQubit

/-- Single-mode charge-basis dimension `d = 2*ncut + 1` (the local `dim` of
the source). -/
def dim (q : FluxQubit) : ℕ := 2 * q.ncut + 1

/-- Single-mode matrices. -/
abbrev SMat (q : FluxQubit) := Matrix (Fin q.dim) (Fin q.dim) ℂ

/-- Composite (two-mode) matrices, indexed by numpy's flattened index. -/
abbrev CMat (q : FluxQubit) := Matrix (Fin (q.dim * q.dim)) (Fin (q.dim * q.dim)) ℂ

/-- `FluxQubit.hilbertdim`: `(2*ncut + 1)**2`. -/
def hilbertdim (q : FluxQubit) : ℕ := (2 * q.ncut + 1) ^ 2

/-- numpy's row-major flattening of a pair of indices: `(i, j) ↦ i*n + j`. -/
def flatten (n : ℕ) : Fin n × Fin n ≃ Fin (n * n) := finProdFinEquiv

theorem flatten_val {n : ℕ} (i j : Fin n) :
    ((flatten n (i, j) : Fin (n * n)) : ℕ) = (i : ℕ) * n + (j : ℕ) := by
  simp [flatten, finProdFinEquiv]
  ring

/-- `np.kron` on square complex matrices, with numpy's flattened row-major
index convention: `kron A B (i*n + k) (j*n + l) = A i j * B k l`. -/
def kron {n : ℕ} (A B : Matrix (Fin n) (Fin n) ℂ) :
    Matrix (Fin (n * n)) (Fin (n * n)) ℂ :=
  (A ⊗ₖ B).submatrix (flatten n).symm (flatten n).symm

theorem kron_apply {n : ℕ} (A B : Matrix (Fin n) (Fin n) ℂ)
    (r c : Fin (n * n)) :
    kron A B r c =
      A ((flatten n).symm r).1 ((flatten n).symm c).1 *
        B ((flatten n).symm r).2 ((flatten n).symm c).2 :=
  rfl

theorem kron_apply_flatten {n : ℕ} (A B : Matrix (Fin n) (Fin n) ℂ)
    (i j k l : Fin n) :
    kron A B (flatten n (i, k)) (flatten n (j, l)) = A i j * B k l := by
  simp [kron_apply, Equiv.symm_apply_apply]

/-- Mixed-product property, transported to the flattened indexing. -/
theorem kron_mul {n : ℕ} (A B C D : Matrix (Fin n) (Fin n) ℂ) :
    kron A B * kron C D = kron (A * C) (B * D) := by
  unfold kron
  rw [Matrix.submatrix_mul_equiv, ← Matrix.mul_kronecker_mul]

theorem kron_one_one {n : ℕ} : kron (1 : Matrix (Fin n) (Fin n) ℂ) 1 = 1 := by
  unfold kron
  rw [Matrix.one_kronecker_one, Matrix.submatrix_one_equiv]

theorem kron_add_left {n : ℕ} (A B C : Matrix (Fin n) (Fin n) ℂ) :
    kron (A + B) C = kron A C + kron B C := by
  ext r c
  simp [kron_apply, add_mul]

theorem kron_add_right {n : ℕ} (A B C : Matrix (Fin n) (Fin n) ℂ) :
    kron A (B + C) = kron A B + kron A C := by
  ext r c
  simp [kron_apply, mul_add]

theorem kron_sub_left {n : ℕ} (A B C : Matrix (Fin n) (Fin n) ℂ) :
    kron (A - B) C = kron A C - kron B C := by
  ext r c
  simp [kron_apply, sub_mul]

theorem kron_sub_right {n : ℕ} (A B C : Matrix (Fin n) (Fin n) ℂ) :
    kron A (B - C) = kron A B - kron A C := by
  ext r c
  simp [kron_apply, mul_sub]

theorem kron_smul_left {n : ℕ} (z : ℂ) (A B : Matrix (Fin n) (Fin n) ℂ) :
    kron (z • A) B = z • kron A B := by
  ext r c
  simp [kron_apply, mul_assoc]

theorem kron_smul_right {n : ℕ} (z : ℂ) (A B : Matrix (Fin n) (Fin n) ℂ) :
    kron A (z • B) = z • kron A B := by
  ext r c
  simp [kron_apply]
  ring

theorem kron_conjTranspose {n : ℕ} (A B : Matrix (Fin n) (Fin n) ℂ) :
    (kron A B)ᴴ = kron Aᴴ Bᴴ := by
  ext r c
  simp [kron_apply, Matrix.conjTranspose_apply, star_mul']

/-- `FluxQubit._n_operator`: `np.diag(np.arange(-ncut, ncut+1))`, the diagonal
matrix whose entry at 0-based index `i` is `-ncut + i`. -/
def n_operator (q : FluxQubit) : SMat q :=
  Matrix.diagonal fun i => -(q.ncut : ℂ) + ((i : ℕ) : ℂ)

/-- `FluxQubit._exp_i_phi_operator`: `np.diag(np.ones(dim-1), k=1)`, ones on
the first super-diagonal. -/
def exp_i_phi_operator (q : FluxQubit) : SMat q :=
  Matrix.of fun i j => if (i : ℕ) + 1 = (j : ℕ) then 1 else 0

/-- `FluxQubit._identity`: `np.eye(2*ncut + 1)`. -/
def identity (q : FluxQubit) : SMat q := 1

/-- `FluxQubit.n_1_operator`: `np.kron(self._n_operator(), self._identity())`. -/
def n_1_operator (q : FluxQubit) : CMat q := kron q.n_operator q.identity

/-- `FluxQubit.n_2_operator`: `np.kron(self._identity(), self._n_operator())`. -/
def n_2_operator (q : FluxQubit) : CMat q := kron q.identity q.n_operator

/-- `FluxQubit.exp_i_phi_1_operator`: `np.kron(self._exp_i_phi_operator(), self._identity())`. -/
def exp_i_phi_1_operator (q : FluxQubit) : CMat q := kron q.exp_i_phi_operator q.identity

/-- `FluxQubit.exp_i_phi_2_operator`: `np.kron(self._identity(), self._exp_i_phi_operator())`. -/
def exp_i_phi_2_operator (q : FluxQubit) : CMat q := kron q.identity q.exp_i_phi_operator

/-- The capacitance matrix `Cmat` assembled entrywise in `FluxQubit.EC_matrix`,
with `CJi = 1/(2*ECJi)` and `Cgi = 1/(2*ECgi)`. -/
def Cmat (q : FluxQubit) : Matrix (Fin 2) (Fin 2) ℝ :=
  Matrix.of
    ![![1 / (2 * q.ECJ1) + 1 / (2 * q.ECJ3) + 1 / (2 * q.ECg1), -(1 / (2 * q.ECJ3))],
      ![-(1 / (2 * q.ECJ3)), 1 / (2 * q.ECJ2) + 1 / (2 * q.ECJ3) + 1 / (2 * q.ECg2)]]

/-- `FluxQubit.EC_matrix`: `np.linalg.inv(Cmat) / 2`. -/
def EC_matrix (q : FluxQubit) : Matrix (Fin 2) (Fin 2) ℝ :=
  (2 : ℝ)⁻¹ • (q.Cmat)⁻¹

/-- `FluxQubit.kineticmat`, translated term by term from the source. -/
def kineticmat (q : FluxQubit) : CMat q :=
  (4 * (q.EC_matrix 0 0 : ℂ)) •
      kron ((q.n_operator - (q.ng1 : ℂ) • q.identity) *
              (q.n_operator - (q.ng1 : ℂ) • q.identity)) q.identity
    + (4 * (q.EC_matrix 1 1 : ℂ)) •
      kron q.identity
        ((q.n_operator - (q.ng2 : ℂ) • q.identity) *
          (q.n_operator - (q.ng2 : ℂ) • q.identity))
    + (4 * ((q.EC_matrix 0 1 : ℂ) + (q.EC_matrix 1 0 : ℂ))) •
      kron (q.n_operator - (q.ng1 : ℂ) • q.identity)
        (q.n_operator - (q.ng2 : ℂ) • q.identity)

/-- `FluxQubit.potentialmat`, translated term by term from the source;
`np.exp(1j*2*np.pi*flux)` becomes `Complex.exp (I * (2*π*flux))`. -/
def potentialmat (q : FluxQubit) : CMat q :=
  (-(1 / 2) * (q.EJ1 : ℂ)) •
      kron (q.exp_i_phi_operator + q.exp_i_phi_operatorᵀ) q.identity
    + (-(1 / 2) * (q.EJ2 : ℂ)) •
      kron q.identity (q.exp_i_phi_operator + q.exp_i_phi_operatorᵀ)
    + (-(1 / 2) * (q.EJ3 : ℂ) * Complex.exp (Complex.I * (2 * (Real.pi : ℂ) * (q.flux : ℂ)))) •
      kron q.exp_i_phi_operator q.exp_i_phi_operatorᵀ
    + (-(1 / 2) * (q.EJ3 : ℂ) * Complex.exp (-Complex.I * (2 * (Real.pi : ℂ) * (q.flux : ℂ)))) •
      kron q.exp_i_phi_operatorᵀ q.exp_i_phi_operator

/-- `FluxQubit.hamiltonian`: `kineticmat() + potentialmat()`. -/
def hamiltonian (q : FluxQubit) : CMat q := q.kineticmat + q.potentialmat

/-- `np.reshape(v, (dim, dim))` in C (row-major) order, as used by
`FluxQubit.wavefunction` on an eigenvector: entry `(i, j)` is the flat
entry `i*dim + j`. -/
def reshape (q : FluxQubit) (v : Fin (q.dim * q.dim) → ℂ) :
    Matrix (Fin q.dim) (Fin q.dim) ℂ :=
  Matrix.of fun i j => v (flatten q.dim (i, j))

theorem identity_def (q : FluxQubit) : q.identity = 1 := rfl

theorem n_operator_conjTranspose (q : FluxQubit) :
    q.n_operatorᴴ = q.n_operator := by
  rw [n_operator, Matrix.diagonal_conjTranspose]
  have h : (star fun i : Fin q.dim => -(q.ncut : ℂ) + ((i : ℕ) : ℂ)) =
      fun i : Fin q.dim => -(q.ncut : ℂ) + ((i : ℕ) : ℂ) := by
    funext i
    simp [Pi.star_apply]
  rw [h]

theorem exp_i_phi_operator_conjTranspose (q : FluxQubit) :
    q.exp_i_phi_operatorᴴ = q.exp_i_phi_operatorᵀ := by
  ext i j
  simp [exp_i_phi_operator, Matrix.conjTranspose_apply, Matrix.transpose_apply, apply_ite]

/-- Claim C1: `kineticmat()` agrees with the composite-operator expression
`4·EC₀₀·(N1−ng1·I)² + 4·EC₁₁·(N2−ng2·I)² + 4·(EC₀₁+EC₁₀)·(N1−ng1·I)(N2−ng2·I)`,
where `N1 = n_1_operator`, `N2 = n_2_operator` and `I` is the `d²`-dimensional
identity; in particular the cross term built as `kron(n−ng1·I_d, n−ng2·I_d)`
equals the composite product `(N1−ng1·I)(N2−ng2·I)`. -/
theorem kineticmat_eq_composite (q : FluxQubit) :
    q.kineticmat =
      (4 * (q.EC_matrix 0 0 : ℂ)) • (q.n_1_operator - (q.ng1 : ℂ) • 1) ^ 2
        + (4 * (q.EC_matrix 1 1 : ℂ)) • (q.n_2_operator - (q.ng2 : ℂ) • 1) ^ 2
        + (4 * ((q.EC_matrix 0 1 : ℂ) + (q.EC_matrix 1 0 : ℂ))) •
            ((q.n_1_operator - (q.ng1 : ℂ) • 1) * (q.n_2_operator - (q.ng2 : ℂ) • 1)) := by
  have e1 : q.n_1_operator - (q.ng1 : ℂ) • 1 =
      kron (q.n_operator - (q.ng1 : ℂ) • q.identity) q.identity := by
    rw [identity_def, kron_sub_left, kron_smul_left, kron_one_one, n_1_operator, identity_def]
  have e2 : q.n_2_operator - (q.ng2 : ℂ) • 1 =
      kron q.identity (q.n_operator - (q.ng2 : ℂ) • q.identity) := by
    rw [identity_def, kron_sub_right, kron_smul_right, kron_one_one, n_2_operator, identity_def]
  rw [kineticmat, e1, e2, pow_two, pow_two, kron_mul, kron_mul, kron_mul]
  simp [identity_def]

/-- Claim C2: `potentialmat()` agrees with the composite-operator expression
`−½EJ1·(E1+E1†) − ½EJ2·(E2+E2†) − ½EJ3·e^{i2πΦ}·(E⊗Eᵀ) − ½EJ3·e^{−i2πΦ}·(Eᵀ⊗E)`,
where `E` is the single-mode raising matrix and `E1 = E⊗I`, `E2 = I⊗E` are the
composite phase-raising operators. -/
theorem potentialmat_eq_composite (q : FluxQubit) :
    q.potentialmat =
      (-(1 / 2) * (q.EJ1 : ℂ)) • (q.exp_i_phi_1_operator + q.exp_i_phi_1_operatorᴴ)
        + (-(1 / 2) * (q.EJ2 : ℂ)) • (q.exp_i_phi_2_operator + q.exp_i_phi_2_operatorᴴ)
        + (-(1 / 2) * (q.EJ3 : ℂ) *
              Complex.exp (Complex.I * (2 * (Real.pi : ℂ) * (q.flux : ℂ)))) •
            kron q.exp_i_phi_operator q.exp_i_phi_operatorᵀ
        + (-(1 / 2) * (q.EJ3 : ℂ) *
              Complex.exp (-Complex.I * (2 * (Real.pi : ℂ) * (q.flux : ℂ)))) •
            kron q.exp_i_phi_operatorᵀ q.exp_i_phi_operator := by
  have e1 : q.exp_i_phi_1_operator + q.exp_i_phi_1_operatorᴴ =
      kron (q.exp_i_phi_operator + q.exp_i_phi_operatorᵀ) q.identity := by
    rw [exp_i_phi_1_operator, kron_conjTranspose, exp_i_phi_operator_conjTranspose,
      identity_def, Matrix.conjTranspose_one, kron_add_left]
  have e2 : q.exp_i_phi_2_operator + q.exp_i_phi_2_operatorᴴ =
      kron q.identity (q.exp_i_phi_operator + q.exp_i_phi_operatorᵀ) := by
    rw [exp_i_phi_2_operator, kron_conjTranspose, exp_i_phi_operator_conjTranspose,
      identity_def, Matrix.conjTranspose_one, kron_add_right]
  rw [potentialmat, e1, e2]

theorem star_real_coe (a : ℝ) : star ((a : ℝ) : ℂ) = ((a : ℝ) : ℂ) := by
  simp [Complex.star_def, Complex.conj_ofReal]

theorem kineticmat_isHermitian (q : FluxQubit) : q.kineticmat.IsHermitian := by
  have hM1 : (q.n_operator - (q.ng1 : ℂ) • q.identity)ᴴ =
      q.n_operator - (q.ng1 : ℂ) • q.identity := by
    rw [Matrix.conjTranspose_sub, n_operator_conjTranspose, Matrix.conjTranspose_smul,
      identity_def, Matrix.conjTranspose_one, star_real_coe]
  have hM2 : (q.n_operator - (q.ng2 : ℂ) • q.identity)ᴴ =
      q.n_operator - (q.ng2 : ℂ) • q.identity := by
    rw [Matrix.conjTranspose_sub, n_operator_conjTranspose, Matrix.conjTranspose_smul,
      identity_def, Matrix.conjTranspose_one, star_real_coe]
  show q.kineticmatᴴ = q.kineticmat
  rw [kineticmat, Matrix.conjTranspose_add, Matrix.conjTranspose_add,
    Matrix.conjTranspose_smul, Matrix.conjTranspose_smul, Matrix.conjTranspose_smul,
    kron_conjTranspose, kron_conjTranspose, kron_conjTranspose,
    Matrix.conjTranspose_mul, Matrix.conjTranspose_mul, hM1, hM2]
  rw [identity_def, Matrix.conjTranspose_one]
  congr 1
  · congr 1
    · congr 1
      simp [star_mul', star_real_coe]
    · congr 1
      simp [star_mul', star_real_coe]
  · congr 1
    simp [star_mul', star_real_coe, star_add]

theorem exp_i_phi_operator_transpose_conjTranspose (q : FluxQubit) :
    q.exp_i_phi_operatorᵀᴴ = q.exp_i_phi_operator := by
  ext i j
  simp [exp_i_phi_operator, Matrix.conjTranspose_apply, Matrix.transpose_apply, apply_ite]

theorem potentialmat_isHermitian (q : FluxQubit) : q.potentialmat.IsHermitian := by
  show q.potentialmatᴴ = q.potentialmat
  rw [potentialmat, identity_def]
  simp [Matrix.conjTranspose_add, Matrix.conjTranspose_smul, kron_conjTranspose,
    Matrix.conjTranspose_one, exp_i_phi_operator_conjTranspose,
    exp_i_phi_operator_transpose_conjTranspose, star_mul', Complex.star_def,
    ← Complex.exp_conj, Complex.conj_I, Complex.conj_ofReal, map_ofNat]
  abel_nf

theorem hamiltonian_isHermitian (q : FluxQubit) : q.hamiltonian.IsHermitian :=
  Matrix.IsHermitian.add (kineticmat_isHermitian q) (potentialmat_isHermitian q)

/-- Claim C3: for every (real) parameter set, `hamiltonian()` equals its own
conjugate transpose. -/
theorem hamiltonian_conjTranspose_eq (q : FluxQubit) :
    q.hamiltonianᴴ = q.hamiltonian :=
  hamiltonian_isHermitian q

/-- Claim C7: shifting the external flux by one flux quantum leaves the
Hamiltonian matrix exactly unchanged. -/
theorem hamiltonian_flux_periodic (q : FluxQubit) :
    hamiltonian { q with flux := q.flux + 1 } = q.hamiltonian := by
  have hp1 : Complex.exp (Complex.I * (2 * (Real.pi : ℂ) * ((q.flux + 1 : ℝ) : ℂ))) =
      Complex.exp (Complex.I * (2 * (Real.pi : ℂ) * (q.flux : ℂ))) := by
    rw [show Complex.I * (2 * (Real.pi : ℂ) * ((q.flux + 1 : ℝ) : ℂ)) =
        Complex.I * (2 * (Real.pi : ℂ) * (q.flux : ℂ)) + 2 * (Real.pi : ℂ) * Complex.I from by
      push_cast
      ring]
    rw [Complex.exp_add, Complex.exp_two_pi_mul_I, mul_one]
  have hp2 : Complex.exp (-Complex.I * (2 * (Real.pi : ℂ) * ((q.flux + 1 : ℝ) : ℂ))) =
      Complex.exp (-Complex.I * (2 * (Real.pi : ℂ) * (q.flux : ℂ))) := by
    rw [show -Complex.I * (2 * (Real.pi : ℂ) * ((q.flux + 1 : ℝ) : ℂ)) =
        -Complex.I * (2 * (Real.pi : ℂ) * (q.flux : ℂ)) + -(2 * (Real.pi : ℂ) * Complex.I) from by
      push_cast
      ring]
    rw [Complex.exp_add, Complex.exp_neg, Complex.exp_two_pi_mul_I, inv_one, mul_one]
  show kineticmat { q with flux := q.flux + 1 } + potentialmat { q with flux := q.flux + 1 } =
    q.kineticmat + q.potentialmat
  have hk : kineticmat { q with flux := q.flux + 1 } = q.kineticmat := rfl
  have hv : potentialmat { q with flux := q.flux + 1 } = q.potentialmat := by
    show (-(1 / 2) * (q.EJ1 : ℂ)) •
        kron (exp_i_phi_operator { q with flux := q.flux + 1 } +
          (exp_i_phi_operator { q with flux := q.flux + 1 })ᵀ)
          (identity { q with flux := q.flux + 1 })
      + (-(1 / 2) * (q.EJ2 : ℂ)) •
        kron (identity { q with flux := q.flux + 1 })
          (exp_i_phi_operator { q with flux := q.flux + 1 } +
            (exp_i_phi_operator { q with flux := q.flux + 1 })ᵀ)
      + (-(1 / 2) * (q.EJ3 : ℂ) *
          Complex.exp (Complex.I * (2 * (Real.pi : ℂ) * ((q.flux + 1 : ℝ) : ℂ)))) •
        kron (exp_i_phi_operator { q with flux := q.flux + 1 })
          (exp_i_phi_operator { q with flux := q.flux + 1 })ᵀ
      + (-(1 / 2) * (q.EJ3 : ℂ) *
          Complex.exp (-Complex.I * (2 * (Real.pi : ℂ) * ((q.flux + 1 : ℝ) : ℂ)))) •
        kron (exp_i_phi_operator { q with flux := q.flux + 1 })ᵀ
          (exp_i_phi_operator { q with flux := q.flux + 1 }) = q.potentialmat
    rw [hp1, hp2]
    rfl
  rw [hk, hv]

/-- The 2×2 capacitance matrix as described by the specification sentence for
`charging_energy_matrix()`: diagonal entries `1/(2·ECJ1) + 1/(2·ECJ3) + 1/(2·ECg1)`
and `1/(2·ECJ2) + 1/(2·ECJ3) + 1/(2·ECg2)`, off-diagonal entries `−1/(2·ECJ3)`. -/
def CmatSpec (q : FluxQubit) : Matrix (Fin 2) (Fin 2) ℝ :=
  Matrix.of fun i j =>
    if i = j then
      if i = 0 then 1 / (2 * q.ECJ1) + 1 / (2 * q.ECJ3) + 1 / (2 * q.ECg1)
      else 1 / (2 * q.ECJ2) + 1 / (2 * q.ECJ3) + 1 / (2 * q.ECg2)
    else -(1 / (2 * q.ECJ3))

theorem Cmat_eq_spec (q : FluxQubit) : q.Cmat = q.CmatSpec := by
  ext i j
  fin_cases i <;> fin_cases j <;> simp [Cmat, CmatSpec]

/-- A concrete parameter set used to instantiate hypotheses of the theorems. -/
def qex : FluxQubit := ⟨1, 1, 1, 1, 1, 1, 1, 1, 0, 0, 0, 1⟩

/-- Claim C5: for parameter sets with nonzero charging energies, `EC_matrix()`
returns half the inverse of the capacitance matrix whose entries are the ones
described in the specification. -/
theorem EC_matrix_eq_half_inv (q : FluxQubit)
    (h1 : q.ECJ1 ≠ 0) (h2 : q.ECJ2 ≠ 0) (h3 : q.ECJ3 ≠ 0)
    (h4 : q.ECg1 ≠ 0) (h5 : q.ECg2 ≠ 0) :
    q.EC_matrix = (2 : ℝ)⁻¹ • (q.CmatSpec)⁻¹ := by
  rw [EC_matrix, Cmat_eq_spec]

theorem EC_matrix_eq_half_inv_witness :
    qex.ECJ1 ≠ 0 ∧ qex.EC_matrix = (2 : ℝ)⁻¹ • (qex.CmatSpec)⁻¹ :=
  ⟨by norm_num [qex], EC_matrix_eq_half_inv qex (by norm_num [qex]) (by norm_num [qex])
    (by norm_num [qex]) (by norm_num [qex]) (by norm_num [qex])⟩

/-- Claim C10: for parameter sets with nonzero charging energies, the
charging-energy matrix is symmetric, so the kinetic cross-coupling coefficient
`4·(EC₀₁ + EC₁₀)` equals `8·EC₀₁`. -/
theorem EC_matrix_symm (q : FluxQubit)
    (h1 : q.ECJ1 ≠ 0) (h2 : q.ECJ2 ≠ 0) (h3 : q.ECJ3 ≠ 0)
    (h4 : q.ECg1 ≠ 0) (h5 : q.ECg2 ≠ 0) :
    q.EC_matrix 0 1 = q.EC_matrix 1 0 ∧
      4 * (q.EC_matrix 0 1 + q.EC_matrix 1 0) = 8 * q.EC_matrix 0 1 := by
  have hsym : q.Cmatᵀ = q.Cmat := by
    ext i j
    fin_cases i <;> fin_cases j <;> simp [Cmat]
  have hinv : (q.Cmat⁻¹)ᵀ = q.Cmat⁻¹ := by
    rw [Matrix.transpose_nonsing_inv, hsym]
  have hent : q.Cmat⁻¹ 1 0 = q.Cmat⁻¹ 0 1 := by
    have h := congrFun (congrFun hinv 0) 1
    simpa [Matrix.transpose_apply] using h
  have h01 : q.EC_matrix 0 1 = q.EC_matrix 1 0 := by
    simp [EC_matrix, Matrix.smul_apply, hent]
  exact ⟨h01, by rw [h01]; ring⟩

theorem EC_matrix_symm_witness :
    qex.EC_matrix 0 1 = qex.EC_matrix 1 0 ∧
      4 * (qex.EC_matrix 0 1 + qex.EC_matrix 1 0) = 8 * qex.EC_matrix 0 1 :=
  EC_matrix_symm qex (by norm_num [qex]) (by norm_num [qex]) (by norm_num [qex])
    (by norm_num [qex]) (by norm_num [qex])

/-- Claim C4: the flattened basis-index convention is consistent: the flat
index of the pair `(i, j)` is `i*d + j`; the corresponding composite basis
vector is an eigenvector of `n_1_operator` with eigenvalue `i − ncut` and of
`n_2_operator` with eigenvalue `j − ncut`; and the wavefunction reshape
places that flat entry at row `i`, column `j`. -/
theorem basis_index_convention (q : FluxQubit) (i j : Fin q.dim) :
    ((flatten q.dim (i, j) : Fin (q.dim * q.dim)) : ℕ) = (i : ℕ) * q.dim + (j : ℕ)
    ∧ q.n_1_operator *ᵥ (Pi.single (flatten q.dim (i, j)) 1 : Fin (q.dim * q.dim) → ℂ) =
        (((i : ℕ) : ℂ) - (q.ncut : ℂ)) •
          (Pi.single (flatten q.dim (i, j)) 1 : Fin (q.dim * q.dim) → ℂ)
    ∧ q.n_2_operator *ᵥ (Pi.single (flatten q.dim (i, j)) 1 : Fin (q.dim * q.dim) → ℂ) =
        (((j : ℕ) : ℂ) - (q.ncut : ℂ)) •
          (Pi.single (flatten q.dim (i, j)) 1 : Fin (q.dim * q.dim) → ℂ)
    ∧ ∀ v : Fin (q.dim * q.dim) → ℂ, q.reshape v i j = v (flatten q.dim (i, j)) := by
  refine ⟨flatten_val i j, ?_, ?_, fun v => rfl⟩
  · funext r
    obtain ⟨⟨r1, r2⟩, rfl⟩ : ∃ p : Fin q.dim × Fin q.dim, flatten q.dim p = r :=
      ⟨(flatten q.dim).symm r, Equiv.apply_symm_apply _ r⟩
    simp only [Matrix.mulVec_single, mul_one, Pi.smul_apply, smul_eq_mul]
    rw [n_1_operator, kron_apply_flatten, identity_def]
    simp only [n_operator, Matrix.diagonal_apply, Matrix.one_apply, Pi.single_apply,
      EmbeddingLike.apply_eq_iff_eq, Prod.mk.injEq]
    by_cases hr1 : r1 = i <;> by_cases hr2 : r2 = j <;>
      simp [hr1, hr2]
    ring
  · funext r
    obtain ⟨⟨r1, r2⟩, rfl⟩ : ∃ p : Fin q.dim × Fin q.dim, flatten q.dim p = r :=
      ⟨(flatten q.dim).symm r, Equiv.apply_symm_apply _ r⟩
    simp only [Matrix.mulVec_single, mul_one, Pi.smul_apply, smul_eq_mul]
    rw [n_2_operator, kron_apply_flatten, identity_def]
    simp only [n_operator, Matrix.diagonal_apply, Matrix.one_apply, Pi.single_apply,
      EmbeddingLike.apply_eq_iff_eq, Prod.mk.injEq]
    by_cases hr1 : r1 = i <;> by_cases hr2 : r2 = j <;>
      simp [hr1, hr2]
    ring

theorem kron_zero_left {n : ℕ} (B : Matrix (Fin n) (Fin n) ℂ) :
    kron (0 : Matrix (Fin n) (Fin n) ℂ) B = 0 := by
  ext r c
  simp [kron_apply]

theorem kron_zero_right {n : ℕ} (A : Matrix (Fin n) (Fin n) ℂ) :
    kron A (0 : Matrix (Fin n) (Fin n) ℂ) = 0 := by
  ext r c
  simp [kron_apply]

/-- Claim C9: with `ncut = 0` every construction operation is total and
degenerates gracefully: the Hilbert dimension is 1, the per-mode dimension is
1, the number operator and the raising operator are the 1×1 zero matrix, the
potential matrix vanishes, and the Hamiltonian is the explicit 1×1 kinetic
matrix — no failure anywhere. -/
theorem ncut_zero_total (q : FluxQubit) (h : q.ncut = 0) :
    q.hilbertdim = 1 ∧ q.dim = 1 ∧ q.n_operator = 0 ∧ q.exp_i_phi_operator = 0 ∧
      q.potentialmat = 0 ∧
      q.hamiltonian =
        (4 * (q.EC_matrix 0 0 : ℂ) * ((q.ng1 : ℂ) * (q.ng1 : ℂ))
            + 4 * (q.EC_matrix 1 1 : ℂ) * ((q.ng2 : ℂ) * (q.ng2 : ℂ))
            + 4 * ((q.EC_matrix 0 1 : ℂ) + (q.EC_matrix 1 0 : ℂ)) *
                ((q.ng1 : ℂ) * (q.ng2 : ℂ))) • 1 := by
  have hdim : q.dim = 1 := by rw [dim, h]
  have hn : q.n_operator = 0 := by
    ext i j
    have hi : (i : ℕ) = 0 := by have hlt := i.isLt; omega
    have hj : (j : ℕ) = 0 := by have hlt := j.isLt; omega
    have hij : i = j := Fin.ext (by rw [hi, hj])
    subst hij
    simp [n_operator, Matrix.diagonal_apply_eq, h, hi]
  have hE : q.exp_i_phi_operator = 0 := by
    ext i j
    have hj : (j : ℕ) = 0 := by have hlt := j.isLt; omega
    simp [exp_i_phi_operator, hj]
  have hpot : q.potentialmat = 0 := by
    rw [potentialmat, hE]
    simp [kron_zero_left, kron_zero_right]
  refine ⟨by rw [hilbertdim, h]; norm_num, hdim, hn, hE, hpot, ?_⟩
  rw [hamiltonian, hpot, add_zero, kineticmat, hn, identity_def]
  simp only [zero_sub, ← neg_smul, smul_mul_smul_comm, one_mul, kron_smul_left,
    kron_smul_right, kron_one_one, smul_smul, neg_mul_neg]
  rw [← add_smul, ← add_smul]
  congr 1
  ring

/-- A concrete parameter set with `ncut = 0`. -/
def qex0 : FluxQubit := ⟨1, 1, 1, 1, 1, 1, 1, 1, 0, 0, 0, 0⟩

theorem ncut_zero_total_witness :
    qex0.hilbertdim = 1 ∧ qex0.dim = 1 ∧ qex0.n_operator = 0 ∧
      qex0.exp_i_phi_operator = 0 ∧ qex0.potentialmat = 0 ∧
      qex0.hamiltonian =
        (4 * (qex0.EC_matrix 0 0 : ℂ) * ((qex0.ng1 : ℂ) * (qex0.ng1 : ℂ))
            + 4 * (qex0.EC_matrix 1 1 : ℂ) * ((qex0.ng2 : ℂ) * (qex0.ng2 : ℂ))
            + 4 * ((qex0.EC_matrix 0 1 : ℂ) + (qex0.EC_matrix 1 0 : ℂ)) *
                ((qex0.ng1 : ℂ) * (qex0.ng2 : ℂ))) • 1 :=
  ncut_zero_total qex0 rfl

theorem hilbertdim_eq (q : FluxQubit) : q.hilbertdim = q.dim * q.dim := by
  rw [hilbertdim, dim]
  ring

/-- Eigenvectors live in the `d²`-dimensional complex coordinate space. -/
abbrev EigVec (q : FluxQubit) := EuclideanSpace ℂ (Fin (q.dim * q.dim))

/-- Boolean ascending comparison on eigenvalue/eigenvector pairs. -/
def pairLE {V : Type} (a b : ℝ × V) : Bool := decide (a.1 ≤ b.1)

/-- Boolean ascending comparison on reals (the order used by `np.sort`). -/
def realLE (a b : ℝ) : Bool := decide (a ≤ b)

/-- The eigenvalue/eigenvector pairs of the (Hermitian) Hamiltonian, listed in
ascending order of eigenvalue: this models the output contract of
`scipy.linalg.eigh`, which returns the selected eigenvalues in ascending order
with consistently paired eigenvector columns. -/
def eighPairs (q : FluxQubit) : List (ℝ × EigVec q) :=
  (List.ofFn fun k => ((hamiltonian_isHermitian q).eigenvalues k,
      (hamiltonian_isHermitian q).eigenvectorBasis k)).mergeSort pairLE

/-- The subset-by-index guard of `scipy.linalg.eigh(..., eigvals=(lo, hi))`:
the selection is valid only for `0 ≤ lo ≤ hi < N`; otherwise scipy raises a
range error and no result is produced. -/
def eighSelect {β : Type} (l : List β) (lo hi : ℤ) : Option (List β) :=
  if 0 ≤ lo ∧ lo ≤ hi ∧ hi < (l.length : ℤ) then
    some ((l.drop lo.toNat).take (hi - lo + 1).toNat)
  else none

/-- `FluxQubit._evals_calc(evals_count)`: `eigh` on the Hamiltonian with
`eigvals=(0, evals_count-1)` and `eigvals_only=True`, then `np.sort`. -/
def evals_calc (q : FluxQubit) (evals_count : ℤ) : Option (List ℝ) :=
  (eighSelect (q.eighPairs.map Prod.fst) 0 (evals_count - 1)).map fun evals =>
    evals.mergeSort realLE

/-- Modelled from the spec: `order_eigensystem` (imported from
`scqubits.utils.spectrum_utils`, whose source file is not part of this
snapshot) canonically reorders an eigensystem so that eigenvalues are
ascending and eigenvectors stay paired with their eigenvalues. -/
def order_eigensystem {V : Type} (evals : List ℝ) (evecs : List V) :
    List ℝ × List V :=
  let sorted := (evals.zip evecs).mergeSort pairLE
  (sorted.map Prod.fst, sorted.map Prod.snd)

/-- `FluxQubit._esys_calc(evals_count)`: `eigh` on the Hamiltonian with
`eigvals=(0, evals_count-1)`, then `order_eigensystem`. -/
def esys_calc (q : FluxQubit) (evals_count : ℤ) :
    Option (List ℝ × List (EigVec q)) :=
  (eighSelect q.eighPairs 0 (evals_count - 1)).map fun pairs =>
    order_eigensystem (pairs.map Prod.fst) (pairs.map Prod.snd)

/-- State-passing form of `_evals_calc`: the method reads `self` but never
mutates it, so the parameter set is returned unchanged. -/
def evals_calc_run (q : FluxQubit) (evals_count : ℤ) :
    Option (List ℝ) × FluxQubit := (q.evals_calc evals_count, q)

/-- State-passing form of `_esys_calc`. -/
def esys_calc_run (q : FluxQubit) (evals_count : ℤ) :
    Option (List ℝ × List (EigVec q)) × FluxQubit := (q.esys_calc evals_count, q)

theorem pairLE_trans {V : Type} (a b c : ℝ × V) :
    pairLE a b → pairLE b c → pairLE a c := by
  simp only [pairLE, decide_eq_true_eq]
  exact le_trans

theorem pairLE_total {V : Type} (a b : ℝ × V) : pairLE a b || pairLE b a := by
  simp only [pairLE, Bool.or_eq_true, decide_eq_true_eq]
  exact le_total a.1 b.1

theorem eighPairs_pairwise (q : FluxQubit) :
    q.eighPairs.Pairwise fun a b => pairLE a b = true := by
  rw [eighPairs]
  exact List.sorted_mergeSort (fun a b c => pairLE_trans a b c) pairLE_total _

theorem eighPairs_length (q : FluxQubit) : q.eighPairs.length = q.hilbertdim := by
  rw [eighPairs, List.length_mergeSort, List.length_ofFn, hilbertdim_eq]

/-- Claim C6: for a valid count, the eigenvalues produced along the
`_esys_calc` path (eigh + `order_eigensystem`) are exactly those produced
along the `_evals_calc` path (eigh + `np.sort`): same values, same ascending
order, same length. -/
theorem esys_calc_matches_evals_calc (q : FluxQubit) (count : ℤ)
    (h1 : 1 ≤ count) (h2 : count ≤ (q.hilbertdim : ℤ)) :
    (q.esys_calc count).map Prod.fst = q.evals_calc count := by
  have hcond : 0 ≤ (0 : ℤ) ∧ (0 : ℤ) ≤ count - 1 ∧
      count - 1 < (q.eighPairs.length : ℤ) := by
    rw [eighPairs_length]
    omega
  have hcond2 : 0 ≤ (0 : ℤ) ∧ (0 : ℤ) ≤ count - 1 ∧
      count - 1 < ((q.eighPairs.map Prod.fst).length : ℤ) := by
    rw [List.length_map, eighPairs_length]
    omega
  have hsub : List.Sublist
      ((q.eighPairs.drop (0 : ℤ).toNat).take (count - 1 - 0 + 1).toNat)
      q.eighPairs :=
    (List.take_sublist _ _).trans (List.drop_sublist _ _)
  have hpw : ((q.eighPairs.drop (0 : ℤ).toNat).take
      (count - 1 - 0 + 1).toNat).Pairwise fun a b => pairLE a b = true :=
    (eighPairs_pairwise q).sublist hsub
  have hpwf : (((q.eighPairs.drop (0 : ℤ).toNat).take
      (count - 1 - 0 + 1).toNat).map Prod.fst).Pairwise
        fun a b => realLE a b = true := by
    refine List.Pairwise.map Prod.fst ?_ hpw
    intro a b hab
    simpa [pairLE, realLE] using hab
  rw [esys_calc, evals_calc, eighSelect, eighSelect, if_pos hcond, if_pos hcond2]
  simp only [Option.map_some']
  congr 1
  rw [order_eigensystem]
  simp only [List.zip_map', Prod.mk.eta, List.map_id', List.map_id]
  rw [List.mergeSort_of_sorted hpw]
  rw [← List.map_drop, ← List.map_take, List.mergeSort_of_sorted hpwf]

theorem esys_calc_matches_evals_calc_witness :
    (qex.esys_calc 1).map Prod.fst = qex.evals_calc 1 :=
  esys_calc_matches_evals_calc qex 1 (by norm_num)
    (by norm_num [hilbertdim, qex])

/-- Claim C8: for an invalid count (`count ≤ 0` or `count >` the Hilbert
dimension) both spectral hooks fail with the range error of the eigensolver:
no result is produced and the parameter set is returned unchanged. -/
theorem calc_invalid_count (q : FluxQubit) (count : ℤ)
    (h : count ≤ 0 ∨ (q.hilbertdim : ℤ) < count) :
    q.evals_calc count = none ∧ q.esys_calc count = none ∧
      q.evals_calc_run count = (none, q) ∧ q.esys_calc_run count = (none, q) := by
  have hnc : ¬(0 ≤ (0 : ℤ) ∧ (0 : ℤ) ≤ count - 1 ∧
      count - 1 < (q.eighPairs.length : ℤ)) := by
    rw [eighPairs_length]
    omega
  have hnc2 : ¬(0 ≤ (0 : ℤ) ∧ (0 : ℤ) ≤ count - 1 ∧
      count - 1 < ((q.eighPairs.map Prod.fst).length : ℤ)) := by
    rw [List.length_map, eighPairs_length]
    omega
  have he : q.evals_calc count = none := by
    rw [evals_calc, eighSelect, if_neg hnc2]
    rfl
  have hs : q.esys_calc count = none := by
    rw [esys_calc, eighSelect, if_neg hnc]
    rfl
  exact ⟨he, hs, by rw [evals_calc_run, he], by rw [esys_calc_run, hs]⟩

theorem calc_invalid_count_witness :
    qex.evals_calc 0 = none ∧ qex.esys_calc 0 = none ∧
      qex.evals_calc_run 0 = (none, qex) ∧ qex.esys_calc_run 0 = (none, qex) :=
  calc_invalid_count qex 0 (Or.inl le_rfl)

end FluxQubit

end
